import Mathlib

/-!
Verification of the pantry-app stock reconciliation core.

The definitions below are a shallow embedding of the Python source:
* `process_meal_deduction` embeds `backend_logic.process_meal_deduction`
  (src/backend_logic.py, lines 364-433),
* `manual_adjustment` embeds the "Update Inventory Record" button handler of
  the Manual Adjustment tab (src/app.py, lines 695-710),
* `process_meal_deduction_tx` embeds the same reconciliation run on an
  explicit MySQL-style transaction (uncommitted working state vs committed
  base state) with a fault-injection point, to express the
  try/commit/except/rollback structure of the source.

Numeric quantities (Python floats fed from JSON) are modelled as `Rat`;
database tables are association lists keyed by `Item_ID : Int`.  The free-text
report strings built with f-strings in the source are modelled by the
inductive `ReportLine`, one constructor per f-string shape, carrying exactly
the interpolated data.
-/

namespace PantryApp

/-- Movement-log action kinds stored in `TBL_LOGS.Action_Type`. -/
inductive ActionType : Type
  | PURCHASE
  | CONSUME
  | WASTE
deriving DecidableEq, Repr

/-- One row of the append-only `TBL_LOGS` movement log, with the columns the
modelled operations write (`Item_ID`, `Action_Type`, `Quantity`,
`Unit_Price`, `Vendor_Name`).  `unit_price` is `none` when the INSERT omits
the column (reconciliation logs omit it). -/
structure LogEntry : Type where
  item_id : Int
  action : ActionType
  qty : Rat
  unit_price : Option Rat
  vendor : String
deriving DecidableEq, Repr

/-- One row of `TBL_ITEM_CATALOG`, restricted to the columns the modelled
operations read or write. -/
structure CatalogItem : Type where
  name : String
  unit : String
  last_price : Rat
  last_vendor : String
deriving DecidableEq, Repr

/-- Database state: `TBL_PANTRY_STOCK` rows as `(Item_ID, Current_Quantity)`
pairs, `TBL_ITEM_CATALOG` rows keyed by `Item_ID`, and the `TBL_LOGS`
movement log in insertion order. -/
structure DB : Type where
  stock : List (Int × Rat)
  catalog : List (Int × CatalogItem)
  logs : List LogEntry
deriving DecidableEq, Repr

/-- First row with the given key, as a `SELECT ... WHERE Item_ID = i` with
`fetchone` observes it. -/
def alistFind {α : Type} : List (Int × α) → Int → Option α
  | [], _ => none
  | p :: rest, i => if p.1 = i then some p.2 else alistFind rest i

/-- SQL `UPDATE ... SET value WHERE Item_ID = i`: rewrite every row whose key
is `i`. -/
def alistSet {α : Type} : List (Int × α) → Int → α → List (Int × α)
  | [], _, _ => []
  | p :: rest, i, v => (if p.1 = i then (i, v) else p) :: alistSet rest i v

/-- SQL `DELETE FROM ... WHERE Item_ID = i`: drop every row whose key is
`i`. -/
def alistDelete {α : Type} : List (Int × α) → Int → List (Int × α)
  | [], _ => []
  | p :: rest, i => if p.1 = i then alistDelete rest i else p :: alistDelete rest i

/-- The stock quantity a caller observes for `i`: the stored quantity when a
`StockEntry` row exists, `0.0` otherwise (app.py line 684 defaults a missing
row to `0.0`). -/
def currentQty (db : DB) (i : Int) : Rat :=
  (alistFind db.stock i).getD 0

/-- The `SELECT Item_Name, Standard_Unit, Current_Quantity FROM
TBL_PANTRY_STOCK s JOIN TBL_ITEM_CATALOG c ... WHERE s.Item_ID = i` lookup of
`process_meal_deduction` (backend_logic.py line 399): a row comes back only
when both a stock row and a catalog row exist. -/
def DB.stockJoin (db : DB) (i : Int) : Option (String × String × Rat) :=
  match alistFind db.stock i, alistFind db.catalog i with
  | some q, some c => some (c.name, c.unit, q)
  | _, _ => none

/-- The movement-log rows recorded for item `i`, in order. -/
def logsFor (db : DB) (i : Int) : List LogEntry :=
  db.logs.filter (fun e => e.item_id == i)

/-- One planned ingredient as `process_meal_deduction` decodes it:
`int(ing.get('id', -1))`, `float(ing.get('qty', 0))`, `ing.get('name',
'Unknown')`, `ing.get('unit', ''))` (backend_logic.py lines 385-388). -/
structure Ingredient : Type where
  id : Int
  qty : Rat
  name : String
  unit : String
deriving DecidableEq, Repr

/-- A selected meal, reduced to the field `process_meal_deduction` reads:
`meal.get('ingredients', [])`. -/
structure Meal : Type where
  ingredients : List Ingredient
deriving DecidableEq, Repr

/-- One line of the `report` / `missing` lists of `process_meal_deduction`.
Each constructor records the data interpolated into the corresponding
f-string of the source:
* `notInPantry n q u` is the line built at backend_logic.py line 392,
* `lowStock n r u a` is the line built at line 420 (`r` required, `a`
  available),
* `notFound i` is the line built at line 423,
* `deducted q u n` is the success line built at line 417. -/
inductive ReportLine : Type
  | notInPantry (name : String) (qty : Rat) (unit : String)
  | lowStock (name : String) (needed : Rat) (unit : String) (available : Rat)
  | notFound (id : Int)
  | deducted (qty : Rat) (unit : String) (name : String)
deriving DecidableEq, Repr

/-- The shortage line appended for a sentinel (`id = -1`) ingredient
(backend_logic.py line 392). -/
def sentinelLine (e : Ingredient) : ReportLine :=
  .notInPantry e.name e.qty e.unit

/-- Python dict update `d[k] = d.get(k, 0) + v` on an insertion-ordered
association list with unique keys: update the existing binding in place, or
append a new binding at the end. -/
def dictAdd : List (Int × Rat) → Int → Rat → List (Int × Rat)
  | [], k, v => [(k, v)]
  | p :: rest, k, v => if p.1 = k then (k, p.2 + v) :: rest else p :: dictAdd rest k v

/-- State of the aggregation loop of `process_meal_deduction` (lines
380-394): the `needed_inventory` dict and the `missing` lines collected so
far. -/
structure AggState : Type where
  needed : List (Int × Rat)
  missing : List ReportLine
deriving DecidableEq, Repr

/-- One iteration of the aggregation loop (backend_logic.py lines 384-394):
a sentinel ingredient is reported missing immediately; an ingredient with a
positive id and positive quantity is summed into `needed_inventory`; anything
else is dropped. -/
def aggStep (st : AggState) (e : Ingredient) : AggState :=
  if e.id = -1 then
    { st with missing := st.missing ++ [sentinelLine e] }
  else if 0 < e.id ∧ 0 < e.qty then
    { st with needed := dictAdd st.needed e.id e.qty }
  else
    st

/-- The aggregation loop run from a given state. -/
def aggFrom (st : AggState) (ings : List Ingredient) : AggState :=
  ings.foldl aggStep st

/-- Phase 1 of `process_meal_deduction`: aggregate the flattened ingredient
list into required quantities and sentinel shortage lines. -/
def aggregate (ings : List Ingredient) : AggState :=
  aggFrom ⟨[], []⟩ ings

/-- State of the deduction loop of `process_meal_deduction` (lines 397-423):
the database seen through the open connection, and the `report` / `missing`
lists. -/
structure Phase2State : Type where
  db : DB
  report : List ReportLine
  missing : List ReportLine
deriving DecidableEq, Repr

/-- The CONSUME log row inserted by a successful deduction (backend_logic.py
line 415): no unit price, fixed vendor tag `Chef AI`. -/
def consumeLog (i : Int) (q : Rat) : LogEntry :=
  ⟨i, .CONSUME, q, none, "Chef AI"⟩

/-- One iteration of the deduction loop (backend_logic.py lines 397-423) for
an aggregated need `(i_id, needed_qty)`:
* stock-join row found and `current_stock ≥ needed_qty`: deduct (deleting the
  stock row when the remainder is exactly zero, updating it otherwise),
  append one CONSUME log row, append one success line;
* row found but `current_stock < needed_qty`: only append a low-stock
  shortage line;
* no row: only append a not-found shortage line. -/
def processItem (st : Phase2State) (p : Int × Rat) : Phase2State :=
  match st.db.stockJoin p.1 with
  | some (item_name, unit, current_stock) =>
    if p.2 ≤ current_stock then
      let new_qty := current_stock - p.2
      { db :=
          { st.db with
            stock := if new_qty = 0 then alistDelete st.db.stock p.1
                     else alistSet st.db.stock p.1 new_qty,
            logs := st.db.logs ++ [consumeLog p.1 p.2] },
        report := st.report ++ [.deducted p.2 unit item_name],
        missing := st.missing }
    else
      { st with missing := st.missing ++ [.lowStock item_name p.2 unit current_stock] }
  | none =>
      { st with missing := st.missing ++ [.notFound p.1] }

/-- The lists returned by a successful `process_meal_deduction` call:
`report` (successful deductions) and `missing` (shortages). -/
structure ReconcileResult : Type where
  report : List ReportLine
  missing : List ReportLine
deriving DecidableEq, Repr

/-- The reconciliation engine on an already-flattened ingredient list:
aggregation phase, then the deduction loop over the aggregated needs. -/
def reconcileIngs (db : DB) (ings : List Ingredient) : DB × ReconcileResult :=
  let ag := aggregate ings
  let st := ag.needed.foldl processItem ⟨db, [], ag.missing⟩
  (st.db, ⟨st.report, st.missing⟩)

/-- `backend_logic.process_meal_deduction` on its happy path: flatten the
selected meals' ingredient lists and reconcile them against the store.
Returns the post-commit database and the `report` / `missing` lists of the
returned dict. -/
def process_meal_deduction (db : DB) (meals : List Meal) : DB × ReconcileResult :=
  reconcileIngs db (meals.flatMap Meal.ingredients)

/-- Update `Last_Vendor` / `Last_Price` of the catalog rows with key `i`
(app.py line 697). -/
def catalogSetPV : List (Int × CatalogItem) → Int → String → Rat → List (Int × CatalogItem)
  | [], _, _, _ => []
  | p :: rest, i, v, pr =>
      (if p.1 = i then (i, { p.2 with last_vendor := v, last_price := pr }) else p)
        :: catalogSetPV rest i v pr

/-- The "Update Inventory Record" button handler of the Manual Adjustment tab
(app.py lines 695-710), for a chosen item, action, quantity, unit price and
vendor: insert one movement-log row, refresh the catalog price/vendor on a
PURCHASE, then recompute the stock row from the quantity read before the
click (missing row read as `0.0`), deleting it when the new quantity is `≤ 0`
and inserting or updating it otherwise.  The handler itself performs no input
validation; the surrounding widgets restrict `qty` to `≥ 0.1` and `i_id` to
catalog rows. -/
def manual_adjustment (db : DB) (i_id : Int) (act : ActionType) (qty price : Rat)
    (vendor : String) : DB :=
  let current_qty := currentQty db i_id
  let db1 : DB := { db with logs := db.logs ++ [⟨i_id, act, qty, some price, vendor⟩] }
  let db2 : DB :=
    if act = .PURCHASE then { db1 with catalog := catalogSetPV db1.catalog i_id vendor price }
    else db1
  let new_qty := if act = .PURCHASE then current_qty + qty else current_qty - qty
  if new_qty ≤ 0 then
    { db2 with stock := alistDelete db2.stock i_id }
  else if (alistFind db2.stock i_id).isSome then
    { db2 with stock := alistSet db2.stock i_id new_qty }
  else
    { db2 with stock := db2.stock ++ [(i_id, new_qty)] }

/-- Invariant of the data model: every `TBL_PANTRY_STOCK` row carries a
strictly positive quantity. -/
def StockPositive (db : DB) : Prop :=
  ∀ p ∈ db.stock, (0 : Rat) < p.2

/-- An open MySQL connection with autocommit off: `base` is the committed
state, `cur` the state seen through the connection (uncommitted writes
included).  `conn.commit()` publishes `cur`; `conn.rollback()` discards it. -/
structure Conn : Type where
  base : DB
  cur : DB
deriving DecidableEq, Repr

/-- State of a transactional reconciliation run: the connection, the number
of write statements executed so far, whether a write has raised, and the two
report lists. -/
structure TxState : Type where
  conn : Conn
  cnt : Nat
  failed : Bool
  report : List ReportLine
  missing : List ReportLine
deriving DecidableEq, Repr

/-- Execute one write statement on the connection, with fault injection: the
write whose index equals `failAt` raises instead of applying.  After a raise
every later statement of the batch is skipped (the exception unwinds to the
handler of backend_logic.py lines 428-430). -/
def txWrite (failAt : Option Nat) (st : TxState) (f : DB → DB) : TxState :=
  if st.failed then st
  else if failAt = some st.cnt then { st with failed := true, cnt := st.cnt + 1 }
  else { st with conn := { st.conn with cur := f st.conn.cur }, cnt := st.cnt + 1 }

/-- One iteration of the deduction loop run on the transaction: identical to
`processItem` except that the two writes of the success branch go through
`txWrite` and the success line is only recorded when neither write raised. -/
def txItem (failAt : Option Nat) (st : TxState) (p : Int × Rat) : TxState :=
  if st.failed then st
  else
    match st.conn.cur.stockJoin p.1 with
    | some (item_name, unit, current_stock) =>
      if p.2 ≤ current_stock then
        let new_qty := current_stock - p.2
        let st1 := txWrite failAt st (fun db =>
          { db with stock := if new_qty = 0 then alistDelete db.stock p.1
                             else alistSet db.stock p.1 new_qty })
        let st2 := txWrite failAt st1 (fun db =>
          { db with logs := db.logs ++ [consumeLog p.1 p.2] })
        if st2.failed then st2
        else { st2 with report := st2.report ++ [.deducted p.2 unit item_name] }
      else
        { st with missing := st.missing ++ [.lowStock item_name p.2 unit current_stock] }
    | none =>
        { st with missing := st.missing ++ [.notFound p.1] }

/-- `process_meal_deduction` with its transaction made explicit
(backend_logic.py lines 375-433): run the batch on an open connection; if any
write raises, `conn.rollback()` discards the uncommitted writes and the call
returns the hard-failure dict (`success: False`); otherwise `conn.commit()`
publishes them and the call returns the normal result.  The returned `DB` is
the committed state after the call. -/
def process_meal_deduction_tx (failAt : Option Nat) (db : DB) (meals : List Meal) :
    DB × Except String ReconcileResult :=
  let ag := aggregate (meals.flatMap Meal.ingredients)
  let st := ag.needed.foldl (txItem failAt) ⟨⟨db, db⟩, 0, false, [], ag.missing⟩
  if st.failed then (st.conn.base, .error "write failed")
  else (st.conn.cur, .ok ⟨st.report, st.missing⟩)

/-- Total quantity requested for item `k` across an ingredient list. -/
def totalFor (k : Int) : List Ingredient → Rat
  | [] => 0
  | e :: r => (if e.id = k then e.qty else 0) + totalFor k r

/-- Remove every ingredient entry for item `k`. -/
def dropKey (k : Int) : List Ingredient → List Ingredient
  | [] => []
  | e :: r => if e.id = k then dropKey k r else e :: dropKey k r

/-- Collapse all entries for item `k` into the first one, which receives the
summed quantity; used to state that splitting an item across several entries
does not change the outcome of reconciliation. -/
def mergeFirst (k : Int) : List Ingredient → List Ingredient
  | [] => []
  | e :: r =>
      if e.id = k then { e with qty := e.qty + totalFor k r } :: dropKey k r
      else e :: mergeFirst k r

/-! ### Association-list lemmas -/

theorem alistFind_set_self {α : Type} (l : List (Int × α)) (i : Int) (v : α) :
    alistFind (alistSet l i v) i = (alistFind l i).map (fun _ => v) := by
  induction l with
  | nil => simp [alistFind, alistSet]
  | cons p rest ih =>
    by_cases h : p.1 = i
    · simp [alistFind, alistSet, h]
    · simp [alistFind, alistSet, h, ih]

theorem alistFind_set_ne {α : Type} (l : List (Int × α)) (i j : Int) (v : α)
    (h : j ≠ i) : alistFind (alistSet l i v) j = alistFind l j := by
  induction l with
  | nil => simp [alistFind, alistSet]
  | cons p rest ih =>
    by_cases hp : p.1 = i
    · have : ¬ (i = j) := fun hij => h hij.symm
      simp [alistFind, alistSet, hp, this, ih]
    · simp [alistFind, alistSet, hp, ih]

theorem alistFind_delete_self {α : Type} (l : List (Int × α)) (i : Int) :
    alistFind (alistDelete l i) i = none := by
  induction l with
  | nil => simp [alistFind, alistDelete]
  | cons p rest ih =>
    by_cases h : p.1 = i
    · simp [alistDelete, h, ih]
    · simp [alistFind, alistDelete, h, ih]

theorem alistFind_delete_ne {α : Type} (l : List (Int × α)) (i j : Int)
    (h : j ≠ i) : alistFind (alistDelete l i) j = alistFind l j := by
  induction l with
  | nil => simp [alistFind, alistDelete]
  | cons p rest ih =>
    by_cases hp : p.1 = i
    · have hij : ¬ (i = j) := fun hh => h hh.symm
      simp [alistFind, alistDelete, hp, hij, ih]
    · simp [alistFind, alistDelete, hp, ih]

theorem alistFind_append_of_none {α : Type} (l l' : List (Int × α)) (j : Int)
    (h : alistFind l j = none) : alistFind (l ++ l') j = alistFind l' j := by
  induction l with
  | nil => simp
  | cons p rest ih =>
    by_cases hp : p.1 = j
    · simp [alistFind, hp] at h
    · simp [alistFind, hp] at h ⊢
      exact ih h

theorem alistFind_append_of_some {α : Type} (l l' : List (Int × α)) (j : Int) (v : α)
    (h : alistFind l j = some v) : alistFind (l ++ l') j = some v := by
  induction l with
  | nil => simp [alistFind] at h
  | cons p rest ih =>
    by_cases hp : p.1 = j
    · simp [alistFind, hp] at h ⊢; exact h
    · simp [alistFind, hp] at h ⊢; exact ih h

/-! ### Lemmas about the `needed_inventory` dict -/

theorem dictAdd_mem_fst (d : List (Int × Rat)) (k : Int) (v : Rat) :
    k ∈ (dictAdd d k v).map Prod.fst := by
  induction d with
  | nil => simp [dictAdd]
  | cons p rest ih =>
    by_cases h : p.1 = k
    · simp [dictAdd, h]
    · simp only [dictAdd, h, if_false, List.map_cons, List.mem_cons]
      exact Or.inr ih

theorem dictAdd_fst_mono (d : List (Int × Rat)) (k j : Int) (v : Rat)
    (h : j ∈ d.map Prod.fst) : j ∈ (dictAdd d k v).map Prod.fst := by
  induction d with
  | nil => simp at h
  | cons p rest ih =>
    by_cases hp : p.1 = k
    · simp only [List.map_cons, List.mem_cons] at h
      simp only [dictAdd, hp, if_true, List.map_cons, List.mem_cons]
      rcases h with h | h
      · exact Or.inl (hp ▸ h)
      · exact Or.inr h
    · simp only [List.map_cons, List.mem_cons] at h
      simp only [dictAdd, hp, if_false, List.map_cons, List.mem_cons]
      rcases h with h | h
      · exact Or.inl h
      · exact Or.inr (ih h)

theorem dictAdd_fst_of_mem (d : List (Int × Rat)) (k : Int) (v : Rat)
    (h : k ∈ d.map Prod.fst) :
    (dictAdd d k v).map Prod.fst = d.map Prod.fst := by
  induction d with
  | nil => simp at h
  | cons p rest ih =>
    by_cases hp : p.1 = k
    · simp [dictAdd, hp]
    · simp only [List.map_cons, List.mem_cons] at h
      rcases h with h | h
      · exact absurd h.symm hp
      · simp [dictAdd, hp, ih h]

theorem dictAdd_fst_of_not_mem (d : List (Int × Rat)) (k : Int) (v : Rat)
    (h : k ∉ d.map Prod.fst) :
    (dictAdd d k v).map Prod.fst = d.map Prod.fst ++ [k] := by
  induction d with
  | nil => simp [dictAdd]
  | cons p rest ih =>
    simp only [List.map_cons, List.mem_cons, not_or] at h
    have hp : ¬ (p.1 = k) := fun hpk => h.1 hpk.symm
    simp [dictAdd, hp, ih h.2]

theorem dictAdd_nodup_fst (d : List (Int × Rat)) (k : Int) (v : Rat)
    (h : (d.map Prod.fst).Nodup) : ((dictAdd d k v).map Prod.fst).Nodup := by
  by_cases hm : k ∈ d.map Prod.fst
  · rw [dictAdd_fst_of_mem d k v hm]; exact h
  · rw [dictAdd_fst_of_not_mem d k v hm]
    refine List.nodup_append.mpr ⟨h, List.nodup_singleton k, ?_⟩
    intro a ha hak
    simp only [List.mem_singleton] at hak
    exact hm (hak ▸ ha)

theorem dictAdd_keys_pos (d : List (Int × Rat)) (k : Int) (v : Rat)
    (hd : ∀ p ∈ d, (0 : Int) < p.1) (hk : 0 < k) :
    ∀ p ∈ dictAdd d k v, (0 : Int) < p.1 := by
  induction d with
  | nil => simpa [dictAdd] using hk
  | cons p rest ih =>
    by_cases hp : p.1 = k
    · intro q hq
      simp [dictAdd, hp] at hq
      rcases hq with hq | hq
      · rw [hq]; exact hk
      · exact hd q (by simp [hq])
    · intro q hq
      simp [dictAdd, hp] at hq
      rcases hq with hq | hq
      · exact hq ▸ hd p (by simp)
      · exact ih (fun r hr => hd r (by simp [hr])) q hq

theorem dictAdd_add (d : List (Int × Rat)) (k : Int) (a b : Rat) :
    dictAdd (dictAdd d k a) k b = dictAdd d k (a + b) := by
  induction d with
  | nil => simp [dictAdd, add_assoc]
  | cons p rest ih =>
    by_cases hp : p.1 = k
    · simp [dictAdd, hp, add_assoc]
    · simp [dictAdd, hp, ih]

theorem dictAdd_zero (d : List (Int × Rat)) (k : Int)
    (h : k ∈ d.map Prod.fst) : dictAdd d k 0 = d := by
  induction d with
  | nil => simp at h
  | cons p rest ih =>
    by_cases hp : p.1 = k
    · obtain ⟨px, py⟩ := p
      simp only at hp
      simp [dictAdd, hp]
    · simp only [List.map_cons, List.mem_cons] at h
      rcases h with h | h
      · exact absurd h.symm hp
      · simp [dictAdd, hp, ih h]

theorem dictAdd_comm (d : List (Int × Rat)) (k j : Int) (a b : Rat)
    (hmem : k ∈ d.map Prod.fst) (hne : j ≠ k) :
    dictAdd (dictAdd d j b) k a = dictAdd (dictAdd d k a) j b := by
  have hkj : ¬ (k = j) := fun hh => hne hh.symm
  induction d with
  | nil => simp at hmem
  | cons p rest ih =>
    by_cases hpk : p.1 = k
    · have hpj : ¬ (p.1 = j) := by rw [hpk]; exact fun hh => hne hh.symm
      simp [dictAdd, hpk, hpj, hkj]
    · by_cases hpj : p.1 = j
      · have hjk : ¬ (j = k) := hne
        simp [dictAdd, hpj, hpk, hjk]
      · simp only [List.map_cons, List.mem_cons] at hmem
        rcases hmem with hmem | hmem
        · exact absurd hmem.symm hpk
        · simp [dictAdd, hpk, hpj, ih hmem]

/-! ### Aggregation-phase lemmas -/

theorem aggFrom_nil (st : AggState) : aggFrom st [] = st := rfl

theorem aggFrom_cons (st : AggState) (e : Ingredient) (l : List Ingredient) :
    aggFrom st (e :: l) = aggFrom (aggStep st e) l := rfl

theorem aggFrom_append (st : AggState) (l1 l2 : List Ingredient) :
    aggFrom st (l1 ++ l2) = aggFrom (aggFrom st l1) l2 :=
  List.foldl_append aggStep st l1 l2

theorem aggStep_needed (st : AggState) (e : Ingredient) :
    (aggStep st e).needed =
      if e.id = -1 then st.needed
      else if 0 < e.id ∧ 0 < e.qty then dictAdd st.needed e.id e.qty
      else st.needed := by
  by_cases h1 : e.id = -1 <;> by_cases h2 : 0 < e.id ∧ 0 < e.qty <;>
    simp [aggStep, h1, h2]

theorem aggStep_missing (st : AggState) (e : Ingredient) :
    (aggStep st e).missing =
      st.missing ++ (if e.id = -1 then [sentinelLine e] else []) := by
  by_cases h1 : e.id = -1 <;> by_cases h2 : 0 < e.id ∧ 0 < e.qty <;>
    simp [aggStep, h1, h2]

theorem aggStep_mk (d : List (Int × Rat)) (m : List ReportLine) (e : Ingredient) :
    aggStep ⟨d, m⟩ e = ⟨(aggStep ⟨d, []⟩ e).needed, m ++ (aggStep ⟨d, []⟩ e).missing⟩ := by
  by_cases h1 : e.id = -1 <;> by_cases h2 : 0 < e.id ∧ 0 < e.qty <;>
    simp [aggStep, h1, h2]

theorem aggFrom_factor (l : List Ingredient) :
    ∀ (d : List (Int × Rat)) (m : List ReportLine),
    aggFrom ⟨d, m⟩ l = ⟨(aggFrom ⟨d, []⟩ l).needed, m ++ (aggFrom ⟨d, []⟩ l).missing⟩ := by
  induction l with
  | nil => intro d m; simp [aggFrom]
  | cons e r ih =>
    intro d m
    rw [aggFrom_cons, aggFrom_cons, aggStep_mk]
    rcases hst : aggStep ⟨d, []⟩ e with ⟨N, M⟩
    rw [ih N (m ++ M), ih N M]
    simp

theorem aggFrom_missing_filter (l : List Ingredient) :
    ∀ (d : List (Int × Rat)) (m : List ReportLine),
    (aggFrom ⟨d, m⟩ l).missing =
      m ++ (l.filter (fun e => e.id == -1)).map sentinelLine := by
  induction l with
  | nil => intro d m; simp [aggFrom]
  | cons e r ih =>
    intro d m
    rw [aggFrom_cons]
    rcases hst : aggStep ⟨d, m⟩ e with ⟨N, M⟩
    have hmiss : M = m ++ (if e.id = -1 then [sentinelLine e] else []) := by
      have := aggStep_missing ⟨d, m⟩ e
      rw [hst] at this
      exact this
    rw [ih N M, hmiss]
    by_cases h : e.id = -1 <;> simp [h]

theorem aggFrom_keys_pos (l : List Ingredient) :
    ∀ st : AggState, (∀ p ∈ st.needed, (0 : Int) < p.1) →
    ∀ p ∈ (aggFrom st l).needed, (0 : Int) < p.1 := by
  induction l with
  | nil => intro st h; exact h
  | cons e r ih =>
    intro st h
    rw [aggFrom_cons]
    apply ih
    rw [aggStep_needed]
    by_cases h1 : e.id = -1
    · simpa [h1] using h
    · by_cases h2 : 0 < e.id ∧ 0 < e.qty
      · simp only [h1, if_false, h2, if_true]
        exact dictAdd_keys_pos _ _ _ h h2.1
      · simpa [h1, h2] using h

theorem aggFrom_nodup (l : List Ingredient) :
    ∀ st : AggState, (st.needed.map Prod.fst).Nodup →
    ((aggFrom st l).needed.map Prod.fst).Nodup := by
  induction l with
  | nil => intro st h; exact h
  | cons e r ih =>
    intro st h
    rw [aggFrom_cons]
    apply ih
    rw [aggStep_needed]
    by_cases h1 : e.id = -1
    · simpa [h1] using h
    · by_cases h2 : 0 < e.id ∧ 0 < e.qty
      · simp only [h1, if_false, h2, if_true]
        exact dictAdd_nodup_fst _ _ _ h
      · simpa [h1, h2] using h

theorem aggStep_fst_mono (st : AggState) (e : Ingredient) (k : Int)
    (h : k ∈ st.needed.map Prod.fst) : k ∈ (aggStep st e).needed.map Prod.fst := by
  rw [aggStep_needed]
  by_cases h1 : e.id = -1
  · simpa [h1] using h
  · by_cases h2 : 0 < e.id ∧ 0 < e.qty
    · simp only [h1, if_false, h2, if_true]
      exact dictAdd_fst_mono _ _ _ _ h
    · simpa [h1, h2] using h

/-! ### Deduction-loop lemmas -/

theorem stockJoin_stock_eq {db : DB} {i : Int} {nm un : String} {q : Rat}
    (h : db.stockJoin i = some (nm, un, q)) : alistFind db.stock i = some q := by
  unfold DB.stockJoin at h
  rcases hs : alistFind db.stock i with _ | q' <;> rw [hs] at h
  · simp at h
  · rcases hc : alistFind db.catalog i with _ | c <;> rw [hc] at h
    · simp at h
    · simp at h
      rw [h.2.2]

theorem stockJoin_congr {db db' : DB} {i : Int}
    (hs : alistFind db'.stock i = alistFind db.stock i)
    (hc : db'.catalog = db.catalog) : db'.stockJoin i = db.stockJoin i := by
  unfold DB.stockJoin
  rw [hs, hc]

theorem processItem_none (st : Phase2State) (p : Int × Rat)
    (h : st.db.stockJoin p.1 = none) :
    processItem st p = { st with missing := st.missing ++ [.notFound p.1] } := by
  simp [processItem, h]

theorem processItem_low (st : Phase2State) (p : Int × Rat) (nm un : String) (cur : Rat)
    (h : st.db.stockJoin p.1 = some (nm, un, cur)) (hlt : cur < p.2) :
    processItem st p = { st with missing := st.missing ++ [.lowStock nm p.2 un cur] } := by
  have hle : ¬ (p.2 ≤ cur) := not_le.mpr hlt
  simp [processItem, h, hle]

theorem processItem_success (st : Phase2State) (p : Int × Rat) (nm un : String) (cur : Rat)
    (h : st.db.stockJoin p.1 = some (nm, un, cur)) (hle : p.2 ≤ cur) :
    processItem st p =
      { db := { st.db with
                stock := if cur - p.2 = 0 then alistDelete st.db.stock p.1
                         else alistSet st.db.stock p.1 (cur - p.2),
                logs := st.db.logs ++ [consumeLog p.1 p.2] },
        report := st.report ++ [.deducted p.2 un nm],
        missing := st.missing } := by
  simp [processItem, h, hle]

theorem processItem_catalog (st : Phase2State) (p : Int × Rat) :
    (processItem st p).db.catalog = st.db.catalog := by
  rcases h : st.db.stockJoin p.1 with _ | ⟨nm, un, cur⟩
  · rw [processItem_none st p h]
  · by_cases hle : p.2 ≤ cur
    · rw [processItem_success st p nm un cur h hle]
    · rw [processItem_low st p nm un cur h (not_le.mp hle)]

theorem processItem_find_ne (st : Phase2State) (p : Int × Rat) (j : Int)
    (hne : j ≠ p.1) :
    alistFind (processItem st p).db.stock j = alistFind st.db.stock j := by
  rcases h : st.db.stockJoin p.1 with _ | ⟨nm, un, cur⟩
  · rw [processItem_none st p h]
  · by_cases hle : p.2 ≤ cur
    · rw [processItem_success st p nm un cur h hle]
      by_cases hz : cur - p.2 = 0
      · simp [hz, alistFind_delete_ne _ _ _ hne]
      · simp [hz, alistFind_set_ne _ _ _ _ hne]
    · rw [processItem_low st p nm un cur h (not_le.mp hle)]

theorem logsFor_append_ne (db : DB) (l : List LogEntry) (j : Int)
    (h : ∀ e ∈ l, e.item_id ≠ j) :
    logsFor { db with logs := db.logs ++ l } j = logsFor db j := by
  unfold logsFor
  simp only [List.filter_append, List.append_right_eq_self]
  rw [List.filter_eq_nil_iff]
  intro e he
  simpa using h e he

theorem processItem_logsFor_ne (st : Phase2State) (p : Int × Rat) (j : Int)
    (hne : j ≠ p.1) :
    logsFor (processItem st p).db j = logsFor st.db j := by
  rcases h : st.db.stockJoin p.1 with _ | ⟨nm, un, cur⟩
  · rw [processItem_none st p h]
  · by_cases hle : p.2 ≤ cur
    · rw [processItem_success st p nm un cur h hle]
      have : ∀ e ∈ [consumeLog p.1 p.2], e.item_id ≠ j := by
        intro e he
        simp at he
        rw [he]
        exact fun hh => hne (by simpa [consumeLog] using hh.symm)
      exact logsFor_append_ne st.db [consumeLog p.1 p.2] j this
    · rw [processItem_low st p nm un cur h (not_le.mp hle)]

theorem processItem_mk (db : DB) (rep miss : List ReportLine) (p : Int × Rat) :
    processItem ⟨db, rep, miss⟩ p =
      ⟨(processItem ⟨db, [], []⟩ p).db,
       rep ++ (processItem ⟨db, [], []⟩ p).report,
       miss ++ (processItem ⟨db, [], []⟩ p).missing⟩ := by
  rcases h : DB.stockJoin db p.1 with _ | ⟨nm, un, cur⟩
  · rw [processItem_none ⟨db, rep, miss⟩ p h, processItem_none ⟨db, [], []⟩ p h]
    simp
  · by_cases hle : p.2 ≤ cur
    · rw [processItem_success ⟨db, rep, miss⟩ p nm un cur h hle,
          processItem_success ⟨db, [], []⟩ p nm un cur h hle]
      simp
    · rw [processItem_low ⟨db, rep, miss⟩ p nm un cur h (not_le.mp hle),
          processItem_low ⟨db, [], []⟩ p nm un cur h (not_le.mp hle)]
      simp

theorem phase2_factor (l : List (Int × Rat)) :
    ∀ (db : DB) (rep miss : List ReportLine),
    l.foldl processItem ⟨db, rep, miss⟩ =
      ⟨(l.foldl processItem ⟨db, [], []⟩).db,
       rep ++ (l.foldl processItem ⟨db, [], []⟩).report,
       miss ++ (l.foldl processItem ⟨db, [], []⟩).missing⟩ := by
  induction l with
  | nil => intro db rep miss; simp
  | cons p r ih =>
    intro db rep miss
    rw [List.foldl_cons, List.foldl_cons, processItem_mk]
    rcases hst : processItem ⟨db, [], []⟩ p with ⟨db1, rep1, miss1⟩
    rw [ih db1 (rep ++ rep1) (miss ++ miss1), ih db1 rep1 miss1]
    simp

theorem phase2_preserve (l : List (Int × Rat)) (i : Int) (hni : ∀ p ∈ l, p.1 ≠ i) :
    ∀ st : Phase2State,
    alistFind (l.foldl processItem st).db.stock i = alistFind st.db.stock i
    ∧ (l.foldl processItem st).db.catalog = st.db.catalog
    ∧ logsFor (l.foldl processItem st).db i = logsFor st.db i := by
  induction l with
  | nil => intro st; exact ⟨rfl, rfl, rfl⟩
  | cons p r ih =>
    intro st
    have hpi : i ≠ p.1 := fun hh => hni p (by simp) hh.symm
    have hr : ∀ q ∈ r, q.1 ≠ i := fun q hq => hni q (by simp [hq])
    obtain ⟨h1, h2, h3⟩ := ih hr (processItem st p)
    refine ⟨?_, ?_, ?_⟩
    · rw [List.foldl_cons, h1, processItem_find_ne st p i hpi]
    · rw [List.foldl_cons, h2, processItem_catalog]
    · rw [List.foldl_cons, h3, processItem_logsFor_ne st p i hpi]

theorem phase2_report_shape (l : List (Int × Rat)) :
    ∀ st : Phase2State,
    (∀ x ∈ st.report, ∃ q u n, x = ReportLine.deducted q u n) →
    ∀ x ∈ (l.foldl processItem st).report, ∃ q u n, x = ReportLine.deducted q u n := by
  induction l with
  | nil => intro st h; exact h
  | cons p r ih =>
    intro st h
    rw [List.foldl_cons]
    apply ih
    rcases hj : st.db.stockJoin p.1 with _ | ⟨nm, un, cur⟩
    · rw [processItem_none st p hj]; exact h
    · by_cases hle : p.2 ≤ cur
      · rw [processItem_success st p nm un cur hj hle]
        intro x hx
        simp only [List.mem_append, List.mem_singleton] at hx
        rcases hx with hx | hx
        · exact h x hx
        · exact ⟨p.2, un, nm, hx⟩
      · rw [processItem_low st p nm un cur hj (not_le.mp hle)]; exact h

theorem append_singleton_ex {α : Type} (a : α) (x y : List α) :
    ∃ pre post, (x ++ [a]) ++ y = pre ++ a :: post :=
  ⟨x, y, by simp⟩

/-- Master per-item postcondition of the deduction phase: for an aggregated
requirement `(i, R)` of the batch and a stock-join row `(nm, un, Q)` for `i`,
reconciliation either deducts in full (when `R ≤ Q`) or reports a low-stock
shortage and leaves the item alone (when `Q < R`). -/
theorem reconcile_item (db : DB) (ings : List Ingredient) (i : Int) (R : Rat)
    (nm un : String) (Q : Rat)
    (hmem : (i, R) ∈ (aggregate ings).needed)
    (hjoin : db.stockJoin i = some (nm, un, Q)) :
    (R ≤ Q →
      alistFind (reconcileIngs db ings).1.stock i
          = (if Q - R = 0 then none else some (Q - R))
      ∧ logsFor (reconcileIngs db ings).1 i = logsFor db i ++ [consumeLog i R]
      ∧ ∃ pre post, (reconcileIngs db ings).2.report
            = pre ++ ReportLine.deducted R un nm :: post)
    ∧ (Q < R →
      alistFind (reconcileIngs db ings).1.stock i = some Q
      ∧ logsFor (reconcileIngs db ings).1 i = logsFor db i
      ∧ ∃ pre post, (reconcileIngs db ings).2.missing
            = pre ++ ReportLine.lowStock nm R un Q :: post) := by
  have hnodup : (((aggregate ings).needed).map Prod.fst).Nodup :=
    aggFrom_nodup ings ⟨[], []⟩ (by simp)
  obtain ⟨l1, l2, hsplit⟩ := List.append_of_mem hmem
  have hkeys : i ∉ l1.map Prod.fst ∧ i ∉ l2.map Prod.fst := by
    rw [hsplit] at hnodup
    simp only [List.map_append, List.map_cons] at hnodup
    rw [List.nodup_append] at hnodup
    obtain ⟨h1, h2, h3⟩ := hnodup
    exact ⟨fun ha => h3 ha (by simp), (List.nodup_cons.mp h2).1⟩
  have hl1 : ∀ p ∈ l1, p.1 ≠ i := by
    intro p hp hpi
    exact hkeys.1 (by rw [← hpi]; exact List.mem_map_of_mem Prod.fst hp)
  have hl2 : ∀ p ∈ l2, p.1 ≠ i := by
    intro p hp hpi
    exact hkeys.2 (by rw [← hpi]; exact List.mem_map_of_mem Prod.fst hp)
  have hrec1 : (reconcileIngs db ings).1 =
      ((aggregate ings).needed.foldl processItem ⟨db, [], (aggregate ings).missing⟩).db := rfl
  have hrec2 : (reconcileIngs db ings).2.report =
      ((aggregate ings).needed.foldl processItem ⟨db, [], (aggregate ings).missing⟩).report := rfl
  have hrec3 : (reconcileIngs db ings).2.missing =
      ((aggregate ings).needed.foldl processItem ⟨db, [], (aggregate ings).missing⟩).missing := rfl
  rw [hsplit] at hrec1 hrec2 hrec3
  rw [List.foldl_append, List.foldl_cons] at hrec1 hrec2 hrec3
  obtain ⟨hst1, hct1, hlg1⟩ :=
    phase2_preserve l1 i hl1 ⟨db, [], (aggregate ings).missing⟩
  rcases hst1def : l1.foldl processItem ⟨db, [], (aggregate ings).missing⟩ with ⟨db1, rep1, miss1⟩
  rw [hst1def] at hst1 hct1 hlg1 hrec1 hrec2 hrec3
  simp only at hst1 hct1 hlg1
  have hjoin1 : db1.stockJoin i = some (nm, un, Q) := by
    rw [stockJoin_congr hst1 hct1]; exact hjoin
  constructor
  · intro hle
    have hstep := processItem_success ⟨db1, rep1, miss1⟩ (i, R) nm un Q hjoin1 hle
    rw [hstep] at hrec1 hrec2 hrec3
    obtain ⟨hst2, hct2, hlg2⟩ := phase2_preserve l2 i hl2
      ⟨{ db1 with
         stock := if Q - R = 0 then alistDelete db1.stock i else alistSet db1.stock i (Q - R),
         logs := db1.logs ++ [consumeLog i R] },
       rep1 ++ [ReportLine.deducted R un nm], miss1⟩
    refine ⟨?_, ?_, ?_⟩
    · rw [hrec1, hst2]
      simp only
      by_cases hz : Q - R = 0
      · simp only [hz, if_true]
        exact alistFind_delete_self db1.stock i
      · simp only [hz, if_false]
        rw [alistFind_set_self]
        have : alistFind db1.stock i = some Q := by
          rw [hst1]; exact stockJoin_stock_eq hjoin
        rw [this]
        rfl
    · rw [hrec1, hlg2]
      simp only [logsFor, List.filter_append]
      have hcl : List.filter (fun e => e.item_id == i) [consumeLog i R] = [consumeLog i R] := by
        simp [consumeLog]
      rw [hcl]
      have : List.filter (fun e => e.item_id == i) db1.logs = logsFor db i := by
        rw [← hlg1]; rfl
      rw [this]
      rfl
    · rw [hrec2]
      rw [phase2_factor]
      exact append_singleton_ex _ _ _
  · intro hlt
    have hstep := processItem_low ⟨db1, rep1, miss1⟩ (i, R) nm un Q hjoin1 hlt
    rw [hstep] at hrec1 hrec2 hrec3
    obtain ⟨hst2, hct2, hlg2⟩ := phase2_preserve l2 i hl2
      ⟨db1, rep1, miss1 ++ [ReportLine.lowStock nm R un Q]⟩
    refine ⟨?_, ?_, ?_⟩
    · rw [hrec1, hst2]
      simp only
      rw [hst1]
      exact stockJoin_stock_eq hjoin
    · rw [hrec1, hlg2]
      exact hlg1
    · rw [hrec3]
      rw [phase2_factor]
      exact append_singleton_ex _ _ _

/-! ### Sample data used by the witnesses -/

/-- Sample store: 5 kg of Rice (item 1) on hand. -/
def riceDB : DB := ⟨[(1, 5)], [(1, ⟨"Rice", "kg", 10, "V"⟩)], []⟩

/-- Sample batch: Rice split across two meals (2 kg and 1 kg) plus an
unknown Saffron entry carrying the sentinel id. -/
def riceMeals : List Meal :=
  [⟨[⟨1, 2, "Rice", "kg"⟩, ⟨-1, 1, "Saffron", "kg"⟩]⟩,
   ⟨[⟨1, 1, "Rice", "kg"⟩]⟩]

/-- Sample batch requesting exactly the 5 kg of Rice on hand. -/
def depleteMeals : List Meal := [⟨[⟨1, 5, "Rice", "kg"⟩]⟩]

/-- Sample store: 1 L of Milk (item 2) on hand. -/
def milkDB : DB := ⟨[(2, 1)], [(2, ⟨"Milk", "L", 10, "V"⟩)], []⟩

/-- Sample batch requesting 2 L of Milk. -/
def milkMeals : List Meal := [⟨[⟨2, 2, "Milk", "L"⟩]⟩]

/-! ### Claims -/

/-- C1: for every reconciliation batch and every known item whose aggregated
required quantity `R` satisfies `R ≤ Q` (the current stock), reconcile
deducts exactly `R` (post-state stock is `Q - R`), appends exactly one
CONSUME movement-log entry of quantity `R` with the fixed `Chef AI`
attribution tag, and adds one line for that item to the success report. -/
theorem c1_full_deduction (db : DB) (meals : List Meal) (i : Int) (R : Rat)
    (nm un : String) (Q : Rat)
    (hmem : (i, R) ∈ (aggregate (meals.flatMap Meal.ingredients)).needed)
    (hjoin : db.stockJoin i = some (nm, un, Q))
    (hle : R ≤ Q) :
    currentQty (process_meal_deduction db meals).1 i = Q - R
    ∧ logsFor (process_meal_deduction db meals).1 i
        = logsFor db i ++ [consumeLog i R]
    ∧ ∃ pre post, (process_meal_deduction db meals).2.report
        = pre ++ ReportLine.deducted R un nm :: post := by
  have h := (reconcile_item db (meals.flatMap Meal.ingredients) i R nm un Q hmem hjoin).1 hle
  refine ⟨?_, h.2.1, h.2.2⟩
  unfold currentQty
  have hfind : alistFind (process_meal_deduction db meals).1.stock i
      = (if Q - R = 0 then none else some (Q - R)) := h.1
  rw [hfind]
  by_cases hz : Q - R = 0
  · simp [hz]
  · simp [hz]

/-- Witness for C1 on the Rice scenario: aggregated requirement 3 kg against
5 kg of stock. -/
theorem c1_full_deduction_witness :
    currentQty (process_meal_deduction riceDB riceMeals).1 1 = 5 - 3
    ∧ logsFor (process_meal_deduction riceDB riceMeals).1 1
        = logsFor riceDB 1 ++ [consumeLog 1 3]
    ∧ ∃ pre post, (process_meal_deduction riceDB riceMeals).2.report
        = pre ++ ReportLine.deducted 3 "kg" "Rice" :: post :=
  c1_full_deduction riceDB riceMeals 1 3 "Rice" "kg" 5
    (by with_unfolding_all decide) (by with_unfolding_all decide)
    (by with_unfolding_all decide)

/-- C2: for every reconciliation batch and every known item whose aggregated
required quantity `R` exceeds the current stock `Q > 0`, reconcile leaves
the item's stock unchanged at `Q`, appends no movement-log entry for it,
deducts nothing (not even the available `Q`), and puts one shortage line
with both the required `R` and the available `Q`. -/
theorem c2_partial_shortage (db : DB) (meals : List Meal) (i : Int) (R : Rat)
    (nm un : String) (Q : Rat)
    (hmem : (i, R) ∈ (aggregate (meals.flatMap Meal.ingredients)).needed)
    (hjoin : db.stockJoin i = some (nm, un, Q))
    (_hQpos : 0 < Q)
    (hgt : Q < R) :
    alistFind (process_meal_deduction db meals).1.stock i = some Q
    ∧ logsFor (process_meal_deduction db meals).1 i = logsFor db i
    ∧ ∃ pre post, (process_meal_deduction db meals).2.missing
        = pre ++ ReportLine.lowStock nm R un Q :: post :=
  (reconcile_item db (meals.flatMap Meal.ingredients) i R nm un Q hmem hjoin).2 hgt

/-- Witness for C2 on the Milk scenario: 2 L requested against 1 L of
stock. -/
theorem c2_partial_shortage_witness :
    alistFind (process_meal_deduction milkDB milkMeals).1.stock 2 = some 1
    ∧ logsFor (process_meal_deduction milkDB milkMeals).1 2 = logsFor milkDB 2
    ∧ ∃ pre post, (process_meal_deduction milkDB milkMeals).2.missing
        = pre ++ ReportLine.lowStock "Milk" 2 "L" 1 :: post :=
  c2_partial_shortage milkDB milkMeals 2 2 "Milk" "L" 1
    (by with_unfolding_all decide) (by with_unfolding_all decide)
    (by with_unfolding_all decide) (by with_unfolding_all decide)

/-! ### Stock-positivity machinery -/

theorem alistDelete_mem {α : Type} {l : List (Int × α)} {i : Int} {q : Int × α}
    (h : q ∈ alistDelete l i) : q ∈ l := by
  induction l with
  | nil => simp [alistDelete] at h
  | cons p rest ih =>
    by_cases hp : p.1 = i
    · simp only [alistDelete, hp, if_true] at h
      exact List.mem_cons_of_mem p (ih h)
    · simp only [alistDelete, hp, if_false, List.mem_cons] at h
      rcases h with h | h
      · exact h ▸ List.mem_cons_self p rest
      · exact List.mem_cons_of_mem p (ih h)

theorem alistSet_mem {α : Type} {l : List (Int × α)} {i : Int} {v : α} {q : Int × α}
    (h : q ∈ alistSet l i v) : q ∈ l ∨ q = (i, v) := by
  induction l with
  | nil => simp [alistSet] at h
  | cons p rest ih =>
    by_cases hp : p.1 = i
    · simp only [alistSet, hp, if_true, List.mem_cons] at h
      rcases h with h | h
      · exact Or.inr h
      · rcases ih h with h' | h'
        · exact Or.inl (List.mem_cons_of_mem p h')
        · exact Or.inr h'
    · simp only [alistSet, hp, if_false, List.mem_cons] at h
      rcases h with h | h
      · exact Or.inl (h ▸ List.mem_cons_self p rest)
      · rcases ih h with h' | h'
        · exact Or.inl (List.mem_cons_of_mem p h')
        · exact Or.inr h'

theorem processItem_stockpos (st : Phase2State) (p : Int × Rat)
    (hpos : StockPositive st.db) : StockPositive (processItem st p).db := by
  rcases hj : st.db.stockJoin p.1 with _ | ⟨nm, un, cur⟩
  · rw [processItem_none st p hj]; exact hpos
  · by_cases hle : p.2 ≤ cur
    · rw [processItem_success st p nm un cur hj hle]
      intro q hq
      simp only at hq
      by_cases hz : cur - p.2 = 0
      · rw [if_pos hz] at hq
        exact hpos q (alistDelete_mem hq)
      · rw [if_neg hz] at hq
        rcases alistSet_mem hq with h | h
        · exact hpos q h
        · rw [h]
          exact lt_of_le_of_ne (sub_nonneg.mpr hle) (Ne.symm hz)
    · rw [processItem_low st p nm un cur hj (not_le.mp hle)]; exact hpos

theorem phase2_stockpos (l : List (Int × Rat)) :
    ∀ st : Phase2State, StockPositive st.db →
    StockPositive (l.foldl processItem st).db := by
  induction l with
  | nil => intro st h; exact h
  | cons p r ih =>
    intro st h
    rw [List.foldl_cons]
    exact ih (processItem st p) (processItem_stockpos st p h)

theorem manual_adjustment_logs (db : DB) (i_id : Int) (act : ActionType)
    (qty price : Rat) (vendor : String) :
    (manual_adjustment db i_id act qty price vendor).logs
      = db.logs ++ [⟨i_id, act, qty, some price, vendor⟩] := by
  unfold manual_adjustment
  dsimp only
  split_ifs <;> rfl

theorem manual_adjustment_stock (db : DB) (i_id : Int) (act : ActionType)
    (qty price : Rat) (vendor : String) :
    (manual_adjustment db i_id act qty price vendor).stock =
      (if (if act = ActionType.PURCHASE then currentQty db i_id + qty
           else currentQty db i_id - qty) ≤ 0
       then alistDelete db.stock i_id
       else if (alistFind db.stock i_id).isSome
       then alistSet db.stock i_id
              (if act = ActionType.PURCHASE then currentQty db i_id + qty
               else currentQty db i_id - qty)
       else db.stock ++
              [(i_id, if act = ActionType.PURCHASE then currentQty db i_id + qty
                      else currentQty db i_id - qty)]) := by
  unfold manual_adjustment
  dsimp only
  split_ifs <;> rfl

theorem manual_adjustment_stockpos (db : DB) (i_id : Int) (act : ActionType)
    (qty price : Rat) (vendor : String) (hpos : StockPositive db) :
    StockPositive (manual_adjustment db i_id act qty price vendor) := by
  intro q hq
  rw [manual_adjustment_stock] at hq
  by_cases h0 : (if act = ActionType.PURCHASE then currentQty db i_id + qty
      else currentQty db i_id - qty) ≤ 0
  · rw [if_pos h0] at hq
    exact hpos q (alistDelete_mem hq)
  · rw [if_neg h0] at hq
    by_cases hs : (alistFind db.stock i_id).isSome
    · rw [if_pos hs] at hq
      rcases alistSet_mem hq with h | h
      · exact hpos q h
      · rw [h]
        exact not_le.mp h0
    · rw [if_neg hs] at hq
      rcases List.mem_append.mp hq with h | h
      · exact hpos q h
      · simp only [List.mem_singleton] at h
        rw [h]
        exact not_le.mp h0

/-- The stock row the handler leaves for the adjusted item itself: removed
when the recomputed quantity is non-positive, stored at the recomputed
quantity otherwise. -/
theorem manual_adjustment_find_self (db : DB) (i_id : Int) (act : ActionType)
    (qty price : Rat) (vendor : String) :
    alistFind (manual_adjustment db i_id act qty price vendor).stock i_id
      = (if (if act = ActionType.PURCHASE then currentQty db i_id + qty
             else currentQty db i_id - qty) ≤ 0
         then none
         else some (if act = ActionType.PURCHASE then currentQty db i_id + qty
                    else currentQty db i_id - qty)) := by
  rw [manual_adjustment_stock]
  by_cases h0 : (if act = ActionType.PURCHASE then currentQty db i_id + qty
      else currentQty db i_id - qty) ≤ 0
  · rw [if_pos h0, if_pos h0]
    exact alistFind_delete_self db.stock i_id
  · rw [if_neg h0, if_neg h0]
    by_cases hs : (alistFind db.stock i_id).isSome
    · rw [if_pos hs, alistFind_set_self]
      rcases Option.isSome_iff_exists.mp hs with ⟨w, hw⟩
      rw [hw]
      rfl
    · rw [if_neg hs]
      rw [alistFind_append_of_none _ _ _ (Option.not_isSome_iff_eq_none.mp hs)]
      simp [alistFind]

/-- C4: the reconciliation engine and the manual-adjustment handler both
preserve the invariant that a stock row exists only with a strictly positive
quantity; a manual adjustment whose recomputed quantity is `≤ 0` deletes the
row (subsequent lookup: not found), and a reconciliation deduction that
empties an item (`R = Q`) deletes the row (subsequent lookup: not found). -/
theorem c4_stockentry_positive (db : DB) (meals : List Meal) (i_id : Int)
    (act : ActionType) (qty price : Rat) (vendor : String)
    (i : Int) (R : Rat) (nm un : String) (Q : Rat)
    (hpos : StockPositive db) :
    StockPositive (process_meal_deduction db meals).1
    ∧ StockPositive (manual_adjustment db i_id act qty price vendor)
    ∧ ((act = ActionType.CONSUME ∨ act = ActionType.WASTE) →
        currentQty db i_id - qty ≤ 0 →
        alistFind (manual_adjustment db i_id act qty price vendor).stock i_id = none)
    ∧ ((i, R) ∈ (aggregate (meals.flatMap Meal.ingredients)).needed →
        db.stockJoin i = some (nm, un, Q) → R = Q →
        alistFind (process_meal_deduction db meals).1.stock i = none) := by
  refine ⟨phase2_stockpos _ _ hpos, manual_adjustment_stockpos _ _ _ _ _ _ hpos, ?_, ?_⟩
  · intro hact hle
    have hnp : ¬ (act = ActionType.PURCHASE) := by
      rcases hact with h | h <;> rw [h] <;> intro hh <;> exact ActionType.noConfusion hh
    rw [manual_adjustment_find_self]
    simp only [hnp, if_false]
    rw [if_pos hle]
  · intro hmem hjoin hRQ
    have h := (reconcile_item db (meals.flatMap Meal.ingredients) i R nm un Q
        hmem hjoin).1 (le_of_eq hRQ)
    have hz : Q - R = 0 := by rw [hRQ, sub_self]
    show alistFind (reconcileIngs db (meals.flatMap Meal.ingredients)).1.stock i = none
    rw [h.1, if_pos hz]

/-- Witness for C4: reconciling away all 5 kg of Rice removes the row, and a
WASTE adjustment of the full 5 kg removes the row. -/
theorem c4_stockentry_positive_witness :
    StockPositive (process_meal_deduction riceDB depleteMeals).1
    ∧ StockPositive (manual_adjustment riceDB 1 ActionType.WASTE 5 10 "op")
    ∧ alistFind (manual_adjustment riceDB 1 ActionType.WASTE 5 10 "op").stock 1 = none
    ∧ alistFind (process_meal_deduction riceDB depleteMeals).1.stock 1 = none := by
  have h := c4_stockentry_positive riceDB depleteMeals 1 ActionType.WASTE 5 10 "op"
      1 5 "Rice" "kg" 5 (by unfold StockPositive; with_unfolding_all decide)
  exact ⟨h.1, h.2.1, h.2.2.1 (Or.inr rfl) (by with_unfolding_all decide),
    h.2.2.2 (by with_unfolding_all decide) (by with_unfolding_all decide) rfl⟩

/-- C7: for a CONSUME or WASTE manual adjustment with current quantity `C`
and request `q`, the remaining stock row holds `C - q`, deleted entirely when
`C - q ≤ 0` (never stored negative); and every adjustment call — any action,
any outcome — appends exactly one movement-log row. -/
theorem c7_manual_consume_waste (db : DB) (i_id : Int) (act : ActionType)
    (qty price : Rat) (vendor : String)
    (hact : act = ActionType.CONSUME ∨ act = ActionType.WASTE) :
    (∀ a : ActionType, (manual_adjustment db i_id a qty price vendor).logs
        = db.logs ++ [⟨i_id, a, qty, some price, vendor⟩])
    ∧ alistFind (manual_adjustment db i_id act qty price vendor).stock i_id
        = (if currentQty db i_id - qty ≤ 0 then none
           else some (currentQty db i_id - qty)) := by
  constructor
  · intro a
    exact manual_adjustment_logs db i_id a qty price vendor
  · have hnp : ¬ (act = ActionType.PURCHASE) := by
      rcases hact with h | h <;> rw [h] <;> intro hh <;> exact ActionType.noConfusion hh
    rw [manual_adjustment_find_self]
    simp only [hnp, if_false]

/-- Witness for C7: wasting the full 5 kg of Rice removes the stock row and
appends exactly one WASTE log row of quantity 5. -/
theorem c7_manual_consume_waste_witness :
    ((manual_adjustment riceDB 1 ActionType.WASTE 5 10 "op").logs
        = riceDB.logs ++ [⟨1, ActionType.WASTE, 5, some 10, "op"⟩])
    ∧ alistFind (manual_adjustment riceDB 1 ActionType.WASTE 5 10 "op").stock 1 = none := by
  have h := c7_manual_consume_waste riceDB 1 ActionType.WASTE 5 10 "op" (Or.inr rfl)
  refine ⟨h.1 ActionType.WASTE, ?_⟩
  rw [h.2]
  with_unfolding_all decide

/-- Counterexample to C8: the handler performs no validation.  A PURCHASE of
quantity `-1` on item 1 (catalogued, 5 in stock) writes a log row and updates
the stock to 4 instead of failing; a PURCHASE for item 99, which has no
catalog row, writes a log row and creates a stock row. -/
theorem c8_counterexample :
    (manual_adjustment riceDB 1 ActionType.PURCHASE (-1) 2 "W").logs
        = riceDB.logs ++ [⟨1, ActionType.PURCHASE, -1, some 2, "W"⟩]
    ∧ alistFind (manual_adjustment riceDB 1 ActionType.PURCHASE (-1) 2 "W").stock 1 = some 4
    ∧ alistFind riceDB.catalog 99 = none
    ∧ (manual_adjustment riceDB 99 ActionType.PURCHASE 3 2 "W").logs
        = riceDB.logs ++ [⟨99, ActionType.PURCHASE, 3, some 2, "W"⟩]
    ∧ alistFind (manual_adjustment riceDB 99 ActionType.PURCHASE 3 2 "W").stock 99 = some 3 := by
  with_unfolding_all decide

/-- C8 amended: the adjustment handler never raises a ValidationError and
performs no input validation of its own — for every input, including a
non-positive PURCHASE quantity or an item id with no catalog row, it appends
exactly one movement-log row and applies the stock arithmetic (deleting the
row when the recomputed quantity is `≤ 0`).  Invalid inputs are excluded only
upstream by the UI widgets (quantity field minimum 0.1, item chosen from the
catalog list). -/
theorem c8_amended_no_validation (db : DB) (i_id : Int) (qty price : Rat)
    (vendor : String) :
    (manual_adjustment db i_id ActionType.PURCHASE qty price vendor).logs
        = db.logs ++ [⟨i_id, ActionType.PURCHASE, qty, some price, vendor⟩]
    ∧ alistFind (manual_adjustment db i_id ActionType.PURCHASE qty price vendor).stock i_id
        = (if currentQty db i_id + qty ≤ 0 then none
           else some (currentQty db i_id + qty)) := by
  constructor
  · exact manual_adjustment_logs db i_id ActionType.PURCHASE qty price vendor
  · rw [manual_adjustment_find_self]
    simp

/-- The reconciliation output, factored through the empty starting report
lists: the shortage list is the aggregation-phase shortages followed by the
deduction-phase ones. -/
theorem reconcileIngs_eta (db : DB) (ings : List Ingredient) :
    reconcileIngs db ings =
      (((aggregate ings).needed.foldl processItem ⟨db, [], []⟩).db,
       ⟨((aggregate ings).needed.foldl processItem ⟨db, [], []⟩).report,
        (aggregate ings).missing
          ++ ((aggregate ings).needed.foldl processItem ⟨db, [], []⟩).missing⟩) := by
  have h : reconcileIngs db ings =
      (((aggregate ings).needed.foldl processItem
          ⟨db, [], (aggregate ings).missing⟩).db,
       ⟨((aggregate ings).needed.foldl processItem
          ⟨db, [], (aggregate ings).missing⟩).report,
        ((aggregate ings).needed.foldl processItem
          ⟨db, [], (aggregate ings).missing⟩).missing⟩) := rfl
  rw [h, phase2_factor]
  rfl

/-- Reconciliation depends on the batch only through its aggregation. -/
theorem reconcileIngs_congr (db : DB) {l1 l2 : List Ingredient}
    (h : aggregate l1 = aggregate l2) :
    reconcileIngs db l1 = reconcileIngs db l2 := by
  unfold reconcileIngs
  rw [h]

/-- C5: sentinel (`id = -1`) entries never touch the store and always land in
the shortage list, never the success list: every aggregated key handed to the
deduction loop is positive, each sentinel entry contributes its `not in
pantry` line at the head of the shortage list, every success line comes from
a deduction, and neither the stock rows nor the logs at key `-1` change. -/
theorem c5_sentinel_no_store_access (db : DB) (meals : List Meal) :
    (∀ p ∈ (aggregate (meals.flatMap Meal.ingredients)).needed, (0 : Int) < p.1)
    ∧ (∃ rest, (process_meal_deduction db meals).2.missing
        = ((meals.flatMap Meal.ingredients).filter (fun e => e.id == -1)).map
            sentinelLine ++ rest)
    ∧ (∀ l ∈ (process_meal_deduction db meals).2.report,
        ∃ q u n, l = ReportLine.deducted q u n)
    ∧ alistFind (process_meal_deduction db meals).1.stock (-1)
        = alistFind db.stock (-1)
    ∧ logsFor (process_meal_deduction db meals).1 (-1) = logsFor db (-1) := by
  have hpos : ∀ p ∈ (aggregate (meals.flatMap Meal.ingredients)).needed, (0 : Int) < p.1 :=
    aggFrom_keys_pos (meals.flatMap Meal.ingredients) ⟨[], []⟩ (by simp)
  have hmiss0 : (aggregate (meals.flatMap Meal.ingredients)).missing
      = ((meals.flatMap Meal.ingredients).filter (fun e => e.id == -1)).map sentinelLine := by
    have := aggFrom_missing_filter (meals.flatMap Meal.ingredients) [] []
    simpa [aggregate] using this
  have hne : ∀ p ∈ (aggregate (meals.flatMap Meal.ingredients)).needed, p.1 ≠ (-1 : Int) := by
    intro p hp h
    have := hpos p hp
    rw [h] at this
    exact absurd this (by decide)
  obtain ⟨hs, hc, hl⟩ := phase2_preserve (aggregate (meals.flatMap Meal.ingredients)).needed
    (-1) hne ⟨db, [], (aggregate (meals.flatMap Meal.ingredients)).missing⟩
  refine ⟨hpos, ?_, ?_, hs, hl⟩
  · refine ⟨((aggregate (meals.flatMap Meal.ingredients)).needed.foldl processItem
        ⟨db, [], []⟩).missing, ?_⟩
    have h2 : (process_meal_deduction db meals).2.missing =
        (reconcileIngs db (meals.flatMap Meal.ingredients)).2.missing := rfl
    rw [h2, reconcileIngs_eta, hmiss0]
  · intro l hl2
    exact phase2_report_shape (aggregate (meals.flatMap Meal.ingredients)).needed
      ⟨db, [], (aggregate (meals.flatMap Meal.ingredients)).missing⟩ (by simp) l hl2

/-- Counterexample to C9: a zero-quantity entry carrying the sentinel id is
not ignored — it produces a `not in pantry` shortage line. -/
theorem c9_counterexample :
    (process_meal_deduction riceDB [⟨[⟨-1, 0, "Saffron", "kg"⟩]⟩]).2.missing
      = [ReportLine.notInPantry "Saffron" 0 "kg"]
    ∧ (process_meal_deduction riceDB [⟨[⟨-1, 0, "Saffron", "kg"⟩]⟩]).2.missing ≠ [] := by
  with_unfolding_all decide

/-- C9 amended: a zero-quantity entry with a known (positive) item id is
ignored entirely — dropping it leaves the reconciliation output unchanged —
but a zero-quantity sentinel entry is not ignored: it still produces its
`not in pantry` shortage line (while causing no deduction, no log entry and
no change to the success report). -/
theorem c9_amended_zero_quantity (db : DB) (pre post rest : List Ingredient)
    (e : Ingredient) (hq : e.qty = 0) :
    (0 < e.id →
      reconcileIngs db (pre ++ e :: post) = reconcileIngs db (pre ++ post))
    ∧ (e.id = -1 →
      (reconcileIngs db (e :: rest)).1 = (reconcileIngs db rest).1
      ∧ (reconcileIngs db (e :: rest)).2.report = (reconcileIngs db rest).2.report
      ∧ (reconcileIngs db (e :: rest)).2.missing
          = sentinelLine e :: (reconcileIngs db rest).2.missing) := by
  constructor
  · intro hid
    have hstep : ∀ st : AggState, aggStep st e = st := by
      intro st
      unfold aggStep
      rw [if_neg (by omega : ¬ e.id = -1),
          if_neg (by rw [hq]; exact fun hh => lt_irrefl 0 hh.2)]
    apply reconcileIngs_congr
    unfold aggregate
    rw [aggFrom_append, aggFrom_append, aggFrom_cons, hstep]
  · intro hid
    have h1 : aggregate (e :: rest)
        = ⟨(aggregate rest).needed, sentinelLine e :: (aggregate rest).missing⟩ := by
      unfold aggregate
      rw [aggFrom_cons]
      have hstep : aggStep ⟨[], []⟩ e = ⟨[], [sentinelLine e]⟩ := by
        simp [aggStep, hid]
      rw [hstep, aggFrom_factor rest [] [sentinelLine e]]
      rfl
    rw [reconcileIngs_eta db (e :: rest), reconcileIngs_eta db rest, h1]
    simp

/-- Witness for C9 amended: dropping a zero-quantity Rice entry changes
nothing, while a zero-quantity Saffron sentinel entry adds exactly its
shortage line. -/
theorem c9_amended_zero_quantity_witness :
    (reconcileIngs riceDB ([] ++ ⟨1, 0, "Rice", "kg"⟩ :: [⟨1, 2, "Rice", "kg"⟩])
        = reconcileIngs riceDB ([] ++ [⟨1, 2, "Rice", "kg"⟩]))
    ∧ ((reconcileIngs riceDB (⟨-1, 0, "Saffron", "kg"⟩ :: [])).1
          = (reconcileIngs riceDB []).1
      ∧ (reconcileIngs riceDB (⟨-1, 0, "Saffron", "kg"⟩ :: [])).2.report
          = (reconcileIngs riceDB []).2.report
      ∧ (reconcileIngs riceDB (⟨-1, 0, "Saffron", "kg"⟩ :: [])).2.missing
          = sentinelLine ⟨-1, 0, "Saffron", "kg"⟩ :: (reconcileIngs riceDB []).2.missing) :=
  ⟨(c9_amended_zero_quantity riceDB [] [⟨1, 2, "Rice", "kg"⟩] []
      ⟨1, 0, "Rice", "kg"⟩ rfl).1 (by decide),
   (c9_amended_zero_quantity riceDB [] [] []
      ⟨-1, 0, "Saffron", "kg"⟩ rfl).2 rfl⟩

/-- C10: an entry whose id is neither the sentinel `-1` nor positive (for
example `0` or `-2`) is silently dropped: removing it from the batch leaves
the reconciliation output — state, success report and shortage report —
completely unchanged. -/
theorem c10_invalid_id_dropped (db : DB) (pre post : List Ingredient)
    (e : Ingredient) (h1 : e.id ≠ -1) (h2 : e.id ≤ 0) :
    reconcileIngs db (pre ++ e :: post) = reconcileIngs db (pre ++ post)
    ∧ ∀ meals : List Meal,
        process_meal_deduction db meals
          = reconcileIngs db (meals.flatMap Meal.ingredients) := by
  constructor
  · have hstep : ∀ st : AggState, aggStep st e = st := by
      intro st
      unfold aggStep
      rw [if_neg h1, if_neg (fun hh => absurd hh.1 (not_lt.mpr h2))]
    apply reconcileIngs_congr
    unfold aggregate
    rw [aggFrom_append, aggFrom_append, aggFrom_cons, hstep]
  · intro meals
    rfl

/-- Witness for C10: an entry with id `-2` is dropped from a batch that also
requests Rice. -/
theorem c10_invalid_id_dropped_witness :
    reconcileIngs riceDB ([] ++ ⟨-2, 3, "Mystery", "kg"⟩ :: [⟨1, 2, "Rice", "kg"⟩])
        = reconcileIngs riceDB ([] ++ [⟨1, 2, "Rice", "kg"⟩])
    ∧ ∀ meals : List Meal,
        process_meal_deduction riceDB meals
          = reconcileIngs riceDB (meals.flatMap Meal.ingredients) :=
  c10_invalid_id_dropped riceDB [] [⟨1, 2, "Rice", "kg"⟩] ⟨-2, 3, "Mystery", "kg"⟩
    (by decide) (by decide)

/-! ### Splitting invariance of the aggregation phase -/

theorem totalFor_nonneg (k : Int) (l : List Ingredient)
    (hpos : ∀ e ∈ l, e.id = k → 0 < e.qty) : 0 ≤ totalFor k l := by
  induction l with
  | nil => simp [totalFor]
  | cons e r ih =>
    have hr : ∀ e' ∈ r, e'.id = k → 0 < e'.qty :=
      fun e' he' h => hpos e' (by simp [he']) h
    by_cases he : e.id = k
    · have hq : 0 < e.qty := hpos e (by simp) he
      simp only [totalFor, he, if_true]
      have := ih hr
      linarith
    · simp only [totalFor, he, if_false, zero_add]
      exact ih hr

theorem aggFrom_collapse (k : Int) (hk : 0 < k) (r : List Ingredient)
    (hpos : ∀ e ∈ r, e.id = k → 0 < e.qty) :
    ∀ (d : List (Int × Rat)) (m : List ReportLine), k ∈ d.map Prod.fst →
    aggFrom ⟨dictAdd d k (totalFor k r), m⟩ (dropKey k r) = aggFrom ⟨d, m⟩ r := by
  induction r with
  | nil =>
    intro d m hmem
    show aggFrom ⟨dictAdd d k 0, m⟩ [] = aggFrom ⟨d, m⟩ []
    rw [aggFrom_nil, aggFrom_nil, dictAdd_zero d k hmem]
  | cons e r ih =>
    intro d m hmem
    have hr : ∀ e' ∈ r, e'.id = k → 0 < e'.qty :=
      fun e' he' h => hpos e' (by simp [he']) h
    by_cases he : e.id = k
    · have hq : 0 < e.qty := hpos e (by simp) he
      have hne : ¬ (e.id = -1) := by omega
      rw [show dropKey k (e :: r) = dropKey k r from by simp [dropKey, he]]
      rw [show totalFor k (e :: r) = e.qty + totalFor k r from by
        simp [totalFor, he]]
      rw [aggFrom_cons ⟨d, m⟩ e r]
      have hstep : aggStep ⟨d, m⟩ e = ⟨dictAdd d e.id e.qty, m⟩ := by
        unfold aggStep
        rw [if_neg hne, if_pos ⟨he ▸ hk, hq⟩]
      rw [hstep, he, ← dictAdd_add d k e.qty (totalFor k r)]
      exact ih hr (dictAdd d k e.qty) m (dictAdd_mem_fst d k e.qty)
    · rw [show dropKey k (e :: r) = e :: dropKey k r from by simp [dropKey, he]]
      rw [show totalFor k (e :: r) = totalFor k r from by simp [totalFor, he]]
      rw [aggFrom_cons, aggFrom_cons]
      by_cases hsent : e.id = -1
      · have hstep1 : aggStep ⟨dictAdd d k (totalFor k r), m⟩ e
            = ⟨dictAdd d k (totalFor k r), m ++ [sentinelLine e]⟩ := by
          unfold aggStep
          rw [if_pos hsent]
        have hstep2 : aggStep ⟨d, m⟩ e = ⟨d, m ++ [sentinelLine e]⟩ := by
          unfold aggStep
          rw [if_pos hsent]
        rw [hstep1, hstep2]
        exact ih hr d (m ++ [sentinelLine e]) hmem
      · by_cases hcond : 0 < e.id ∧ 0 < e.qty
        · have hstep1 : aggStep ⟨dictAdd d k (totalFor k r), m⟩ e
              = ⟨dictAdd (dictAdd d k (totalFor k r)) e.id e.qty, m⟩ := by
            unfold aggStep
            rw [if_neg hsent, if_pos hcond]
          have hstep2 : aggStep ⟨d, m⟩ e = ⟨dictAdd d e.id e.qty, m⟩ := by
            unfold aggStep
            rw [if_neg hsent, if_pos hcond]
          rw [hstep1, hstep2,
            ← dictAdd_comm d k e.id (totalFor k r) e.qty hmem he]
          exact ih hr (dictAdd d e.id e.qty) m (dictAdd_fst_mono d e.id k e.qty hmem)
        · have hstep1 : aggStep ⟨dictAdd d k (totalFor k r), m⟩ e
              = ⟨dictAdd d k (totalFor k r), m⟩ := by
            unfold aggStep
            rw [if_neg hsent, if_neg hcond]
          have hstep2 : aggStep ⟨d, m⟩ e = ⟨d, m⟩ := by
            unfold aggStep
            rw [if_neg hsent, if_neg hcond]
          rw [hstep1, hstep2]
          exact ih hr d m hmem

theorem aggFrom_mergeFirst (k : Int) (hk : 0 < k) :
    ∀ (ings : List Ingredient), (∀ e ∈ ings, e.id = k → 0 < e.qty) →
    ∀ st : AggState, aggFrom st (mergeFirst k ings) = aggFrom st ings := by
  intro ings
  induction ings with
  | nil => intro _ st; rfl
  | cons e r ih =>
    intro hpos st
    have hr : ∀ e' ∈ r, e'.id = k → 0 < e'.qty :=
      fun e' he' h => hpos e' (by simp [he']) h
    by_cases he : e.id = k
    · rw [show mergeFirst k (e :: r)
          = { e with qty := e.qty + totalFor k r } :: dropKey k r from by
        simp [mergeFirst, he]]
      rw [aggFrom_cons, aggFrom_cons]
      have hq : 0 < e.qty := hpos e (by simp) he
      have hT : 0 ≤ totalFor k r := totalFor_nonneg k r hr
      have hne : ¬ (e.id = -1) := by omega
      have hstep1 : aggStep st { e with qty := e.qty + totalFor k r }
          = { st with needed := dictAdd st.needed e.id (e.qty + totalFor k r) } := by
        unfold aggStep
        rw [if_neg hne, if_pos ⟨he ▸ hk, show 0 < e.qty + totalFor k r by linarith⟩]
      have hstep2 : aggStep st e
          = { st with needed := dictAdd st.needed e.id e.qty } := by
        unfold aggStep
        rw [if_neg hne, if_pos ⟨he ▸ hk, hq⟩]
      rw [hstep1, hstep2, he, ← dictAdd_add st.needed k e.qty (totalFor k r)]
      exact aggFrom_collapse k hk r hr (dictAdd st.needed k e.qty) st.missing
        (dictAdd_mem_fst st.needed k e.qty)
    · rw [show mergeFirst k (e :: r) = e :: mergeFirst k r from by
        simp [mergeFirst, he]]
      rw [aggFrom_cons, aggFrom_cons]
      exact ih hr (aggStep st e)

/-- C3: the engine first sums all entries sharing a known item id into one
required quantity, so a batch with an item split across several entries
produces exactly the same output — deductions, logs, success report and
shortage report — as the batch with those entries collapsed into the first
one carrying the summed quantity. -/
theorem c3_aggregation_split (db : DB) (ings : List Ingredient) (k : Int)
    (hk : 0 < k) (hpos : ∀ e ∈ ings, e.id = k → 0 < e.qty) :
    reconcileIngs db ings = reconcileIngs db (mergeFirst k ings)
    ∧ ∀ meals : List Meal,
        process_meal_deduction db meals
          = reconcileIngs db (meals.flatMap Meal.ingredients) := by
  refine ⟨?_, fun _ => rfl⟩
  exact (reconcileIngs_congr db (aggFrom_mergeFirst k hk ings hpos ⟨[], []⟩)).symm

/-- Witness for C3: the Rice request split 2 kg + 1 kg around a Saffron
sentinel entry reconciles exactly like the single merged 3 kg entry. -/
theorem c3_aggregation_split_witness :
    reconcileIngs riceDB
        [⟨1, 2, "Rice", "kg"⟩, ⟨-1, 1, "Saffron", "kg"⟩, ⟨1, 1, "Rice", "kg"⟩]
      = reconcileIngs riceDB
        (mergeFirst 1 [⟨1, 2, "Rice", "kg"⟩, ⟨-1, 1, "Saffron", "kg"⟩, ⟨1, 1, "Rice", "kg"⟩])
    ∧ ∀ meals : List Meal,
        process_meal_deduction riceDB meals
          = reconcileIngs riceDB (meals.flatMap Meal.ingredients) :=
  c3_aggregation_split riceDB
    [⟨1, 2, "Rice", "kg"⟩, ⟨-1, 1, "Saffron", "kg"⟩, ⟨1, 1, "Rice", "kg"⟩] 1
    (by decide) (by with_unfolding_all decide)

/-! ### Transaction lemmas -/

theorem txWrite_base (failAt : Option Nat) (st : TxState) (f : DB → DB) :
    (txWrite failAt st f).conn.base = st.conn.base := by
  unfold txWrite
  split_ifs <;> rfl

theorem TxState_if_report_base (c : Prop) [Decidable c] (st' : TxState) (a : List ReportLine) :
    ((if c then st' else { st' with report := st'.report ++ a }) : TxState).conn.base
      = st'.conn.base := by
  split_ifs <;> rfl

theorem txItem_base (failAt : Option Nat) (st : TxState) (p : Int × Rat) :
    (txItem failAt st p).conn.base = st.conn.base := by
  unfold txItem
  by_cases hf : st.failed = true
  · simp [hf]
  · simp only [hf, Bool.false_eq_true, if_false]
    rcases hj : st.conn.cur.stockJoin p.1 with _ | ⟨nm, un, cur⟩
    · simp [hj]
    · simp only [hj]
      by_cases hle : p.2 ≤ cur
      · rw [if_pos hle]
        rw [TxState_if_report_base, txWrite_base, txWrite_base]
      · rw [if_neg hle]

theorem txWrite_none (st : TxState) (f : DB → DB) (hf : st.failed = false) :
    txWrite none st f
      = { st with conn := { st.conn with cur := f st.conn.cur }, cnt := st.cnt + 1 } := by
  unfold txWrite
  rw [if_neg (by simp [hf]), if_neg (by simp)]

theorem txItem_none_eq (base : DB) (ps : Phase2State) (n : Nat) (p : Int × Rat) :
    ∃ m, txItem none ⟨⟨base, ps.db⟩, n, false, ps.report, ps.missing⟩ p
      = ⟨⟨base, (processItem ps p).db⟩, m, false,
         (processItem ps p).report, (processItem ps p).missing⟩ := by
  rcases hj : ps.db.stockJoin p.1 with _ | ⟨nm, un, cur⟩
  · refine ⟨n, ?_⟩
    rw [processItem_none ps p hj]
    unfold txItem
    dsimp only
    rw [hj]
    simp
  · by_cases hle : p.2 ≤ cur
    · refine ⟨n + 2, ?_⟩
      rw [processItem_success ps p nm un cur hj hle]
      unfold txItem
      dsimp only
      rw [hj]
      simp only [Bool.false_eq_true, if_false, hle, if_true]
      rw [txWrite_none _ _ rfl, txWrite_none _ _ rfl]
      simp
    · refine ⟨n, ?_⟩
      rw [processItem_low ps p nm un cur hj (not_le.mp hle)]
      unfold txItem
      dsimp only
      rw [hj]
      simp [hle]
theorem txFold_base (failAt : Option Nat) (l : List (Int × Rat)) :
    ∀ st : TxState, (l.foldl (txItem failAt) st).conn.base = st.conn.base := by
  induction l with
  | nil => intro st; rfl
  | cons p r ih =>
    intro st
    rw [List.foldl_cons, ih, txItem_base]

theorem txFold_none_eq (l : List (Int × Rat)) :
    ∀ (base : DB) (ps : Phase2State) (n : Nat),
    ∃ m, l.foldl (txItem none) ⟨⟨base, ps.db⟩, n, false, ps.report, ps.missing⟩
      = ⟨⟨base, (l.foldl processItem ps).db⟩, m, false,
         (l.foldl processItem ps).report, (l.foldl processItem ps).missing⟩ := by
  induction l with
  | nil => intro base ps n; exact ⟨n, rfl⟩
  | cons p r ih =>
    intro base ps n
    rw [List.foldl_cons, List.foldl_cons]
    obtain ⟨m1, h1⟩ := txItem_none_eq base ps n p
    rw [h1]
    exact ih base (processItem ps p) m1

/-- C6: when a write of the reconciliation batch fails, the whole batch is
rolled back — the returned committed state is exactly the initial state — and
the call returns the hard-failure result, distinct from every normal `ok`
result (shortage lists included); with no failing write, the transactional
run commits exactly the plain reconciliation outcome. -/
theorem c6_transaction_rollback (db : DB) (meals : List Meal)
    (failAt : Option Nat) (e : String)
    (herr : (process_meal_deduction_tx failAt db meals).2 = .error e) :
    (process_meal_deduction_tx failAt db meals).1 = db
    ∧ (∀ r : ReconcileResult,
        (process_meal_deduction_tx failAt db meals).2 ≠ Except.ok r)
    ∧ process_meal_deduction_tx none db meals
        = ((process_meal_deduction db meals).1,
           .ok (process_meal_deduction db meals).2) := by
  refine ⟨?_, ?_, ?_⟩
  · by_cases hf : ((aggregate (meals.flatMap Meal.ingredients)).needed.foldl
        (txItem failAt)
        ⟨⟨db, db⟩, 0, false, [], (aggregate (meals.flatMap Meal.ingredients)).missing⟩).failed = true
    · have h1 : (process_meal_deduction_tx failAt db meals).1
          = ((aggregate (meals.flatMap Meal.ingredients)).needed.foldl (txItem failAt)
              ⟨⟨db, db⟩, 0, false, [],
               (aggregate (meals.flatMap Meal.ingredients)).missing⟩).conn.base := by
        unfold process_meal_deduction_tx
        dsimp only
        rw [if_pos hf]
      rw [h1, txFold_base]
    · exfalso
      have h2 : (process_meal_deduction_tx failAt db meals).2
          = .ok ⟨((aggregate (meals.flatMap Meal.ingredients)).needed.foldl (txItem failAt)
                ⟨⟨db, db⟩, 0, false, [],
                 (aggregate (meals.flatMap Meal.ingredients)).missing⟩).report,
               ((aggregate (meals.flatMap Meal.ingredients)).needed.foldl (txItem failAt)
                ⟨⟨db, db⟩, 0, false, [],
                 (aggregate (meals.flatMap Meal.ingredients)).missing⟩).missing⟩ := by
        unfold process_meal_deduction_tx
        dsimp only
        rw [if_neg hf]
      rw [h2] at herr
      exact Except.noConfusion herr
  · intro r hok
    rw [herr] at hok
    exact Except.noConfusion hok
  · obtain ⟨m, hm⟩ := txFold_none_eq
      (aggregate (meals.flatMap Meal.ingredients)).needed db
      ⟨db, [], (aggregate (meals.flatMap Meal.ingredients)).missing⟩ 0
    dsimp only at hm
    unfold process_meal_deduction_tx
    dsimp only
    rw [hm]
    rfl

/-- Witness for C6: failing the very first write of the Rice batch returns
the hard failure with the store unchanged, while the fault-free run commits
the plain reconciliation outcome. -/
theorem c6_transaction_rollback_witness :
    (process_meal_deduction_tx (some 0) riceDB riceMeals).1 = riceDB
    ∧ (∀ r : ReconcileResult,
        (process_meal_deduction_tx (some 0) riceDB riceMeals).2 ≠ Except.ok r)
    ∧ process_meal_deduction_tx none riceDB riceMeals
        = ((process_meal_deduction riceDB riceMeals).1,
           .ok (process_meal_deduction riceDB riceMeals).2) :=
  c6_transaction_rollback riceDB riceMeals (some 0) "write failed"
    (by with_unfolding_all rfl)

end PantryApp
